import Mathlib

/-!
Shallow embedding of `scripts/update_stats.py`: the record extractor
(`parse_experiment`), the collector (`collect_experiments`), the aggregator
(`calculate_stats`) and the effect skeleton of `main`.  Documents are modelled
as lists of characters; the regular expressions of the source are modelled by
explicit scanning functions with the same leftmost-match semantics.
-/

namespace UpdateStats

/-- The backtick character (code point 96), written via `Char.ofNat`. -/
def btick : Char := Char.ofNat 96

/-- The backslash character. -/
def bslash : Char := '\\'

/-- Character class of the capture group of the tag regex: any character that
is neither a backtick nor a backslash. -/
def isTagChar (c : Char) : Bool := c ≠ btick && c ≠ bslash

/-- One escapable delimiter of the tag regex: an optional backslash
immediately followed by a backtick.  The backslash branch is attempted first
(greedy `?`), which is also the only order that can succeed, since the two
branches are distinguished by the first character.  Returns the remaining
input on success. -/
def escDelim : List Char → Option (List Char)
  | [] => none
  | c :: r =>
    if c = btick then some r
    else if c = bslash then
      match r with
      | c₂ :: r₂ => if c₂ = btick then some r₂ else none
      | [] => none
    else none

/-- Attempt to match the whole tag pattern (escapable backtick, a nonempty
greedy run of tag characters as the capture, escapable backtick) at the head
of the input.  Returns the capture and the input remaining after the match.
The greedy capture cannot backtrack usefully: it always stops exactly at the
first backtick or backslash, which must then begin the closing delimiter. -/
def matchTagAt (l : List Char) : Option (List Char × List Char) :=
  match escDelim l with
  | none => none
  | some r =>
    if (r.takeWhile isTagChar).isEmpty then none
    else
      match escDelim (r.dropWhile isTagChar) with
      | none => none
      | some r₂ => some (r.takeWhile isTagChar, r₂)

theorem escDelim_length {l r : List Char} (h : escDelim l = some r) :
    r.length < l.length := by
  match l with
  | [] => simp [escDelim] at h
  | c :: t =>
    simp only [escDelim] at h
    split_ifs at h with h₁ h₂
    · cases h; simp
    · match t with
      | [] => simp at h
      | c₂ :: t₂ =>
        simp only [] at h
        split_ifs at h
        cases h
        simp
        omega

theorem matchTagAt_length {l cap rem : List Char}
    (h : matchTagAt l = some (cap, rem)) : rem.length < l.length := by
  unfold matchTagAt at h
  match h₁ : escDelim l with
  | none => rw [h₁] at h; simp at h
  | some r =>
    rw [h₁] at h
    simp only [] at h
    split_ifs at h with h₂
    match h₃ : escDelim (r.dropWhile isTagChar) with
    | none => rw [h₃] at h; simp at h
    | some r₂ =>
      rw [h₃] at h
      cases h
      have hsplit := congrArg List.length
        (List.takeWhile_append_dropWhile (p := isTagChar) (l := r))
      rw [List.length_append] at hsplit
      have hdrop : (r.dropWhile isTagChar).length ≤ r.length := by omega
      have := escDelim_length h₃
      have := escDelim_length h₁
      omega

/-- `re.findall` of the tag regex over the input: scan left to right, at each
position try the pattern; on a match, emit the capture and resume after the
matched span (non-overlapping matches); otherwise advance one character. -/
def findTags (l : List Char) : List (List Char) :=
  match l with
  | [] => []
  | c :: rest =>
    match h : matchTagAt (c :: rest) with
    | some (cap, rem) => cap :: findTags rem
    | none => findTags rest
termination_by l.length
decreasing_by
  · exact matchTagAt_length h
  · simp

theorem findTags_nil : findTags [] = [] := by
  rw [findTags.eq_def]

theorem findTags_cons_pos {c : Char} {rest cap rem : List Char}
    (h : matchTagAt (c :: rest) = some (cap, rem)) :
    findTags (c :: rest) = cap :: findTags rem := by
  conv_lhs => rw [findTags.eq_def]
  split
  · rename_i h₂
    simp at h₂
  · rename_i c₂ r₂ h₂
    cases h₂
    split
    · rename_i cap₂ rem₂ h₃
      rw [h] at h₃
      cases h₃
      rfl
    · rename_i h₃
      rw [h] at h₃
      cases h₃

theorem findTags_cons_neg {c : Char} {rest : List Char}
    (h : matchTagAt (c :: rest) = none) :
    findTags (c :: rest) = findTags rest := by
  conv_lhs => rw [findTags.eq_def]
  split
  · rename_i h₂
    simp at h₂
  · rename_i c₂ r₂ h₂
    cases h₂
    split
    · rename_i cap₂ rem₂ h₃
      rw [h] at h₃
      cases h₃
    · rfl

theorem escDelim_btick (t : List Char) : escDelim (btick :: t) = some t := by
  simp [escDelim]

theorem escDelim_bslash_btick (t : List Char) :
    escDelim (bslash :: btick :: t) = some t := by
  have h : ¬ bslash = btick := by decide
  simp [escDelim, h]

theorem tagSpan (x : List Char) (hc : ∀ c ∈ x, isTagChar c) (d : Char)
    (hd : isTagChar d = false) (r : List Char) :
    (x ++ d :: r).takeWhile isTagChar = x ∧
      (x ++ d :: r).dropWhile isTagChar = d :: r := by
  induction x with
  | nil => simp [List.takeWhile_cons, List.dropWhile_cons, hd]
  | cons a t ih =>
    have ha : isTagChar a = true := hc a (by simp)
    have iht := ih (fun c hc₂ => hc c (by simp [hc₂]))
    simp [List.takeWhile_cons, List.dropWhile_cons, ha, iht.1, iht.2]

theorem matchTagAt_core {l x rest : List Char} {d : Char} {t : List Char}
    (hopen : escDelim l = some (x ++ d :: t))
    (hx : x ≠ []) (hc : ∀ c ∈ x, isTagChar c) (hd : isTagChar d = false)
    (hclose : escDelim (d :: t) = some rest) :
    matchTagAt l = some (x, rest) := by
  have hxe : x.isEmpty = false := by
    cases x with
    | nil => exact absurd rfl hx
    | cons a t₂ => rfl
  have hspan := tagSpan x hc d hd t
  unfold matchTagAt
  rw [hopen]
  simp only [hspan.1, hspan.2, hxe, hclose]
  rfl

theorem isTagChar_btick : isTagChar btick = false := by simp [isTagChar]

theorem isTagChar_bslash : isTagChar bslash = false := by simp [isTagChar]

theorem matchTag_plain (x rest : List Char) (hx : x ≠ [])
    (hc : ∀ c ∈ x, isTagChar c) :
    matchTagAt (btick :: (x ++ btick :: rest)) = some (x, rest) :=
  matchTagAt_core (escDelim_btick _) hx hc isTagChar_btick (escDelim_btick _)

theorem matchTag_escLeft (x rest : List Char) (hx : x ≠ [])
    (hc : ∀ c ∈ x, isTagChar c) :
    matchTagAt (bslash :: btick :: (x ++ btick :: rest)) = some (x, rest) :=
  matchTagAt_core (escDelim_bslash_btick _) hx hc isTagChar_btick
    (escDelim_btick _)

theorem matchTag_escRight (x rest : List Char) (hx : x ≠ [])
    (hc : ∀ c ∈ x, isTagChar c) :
    matchTagAt (btick :: (x ++ bslash :: btick :: rest)) = some (x, rest) :=
  matchTagAt_core (escDelim_btick _) hx hc isTagChar_bslash
    (escDelim_bslash_btick _)

theorem matchTag_escBoth (x rest : List Char) (hx : x ≠ [])
    (hc : ∀ c ∈ x, isTagChar c) :
    matchTagAt (bslash :: btick :: (x ++ bslash :: btick :: rest)) =
      some (x, rest) :=
  matchTagAt_core (escDelim_bslash_btick _) hx hc isTagChar_bslash
    (escDelim_bslash_btick _)

theorem matchTagAt_some_facts {l cap rem : List Char}
    (h : matchTagAt l = some (cap, rem)) :
    cap ≠ [] ∧ ∀ c ∈ cap, isTagChar c := by
  unfold matchTagAt at h
  match h₁ : escDelim l with
  | none => rw [h₁] at h; cases h
  | some r =>
    rw [h₁] at h
    simp only [] at h
    split_ifs at h with h₂
    match h₃ : escDelim (r.dropWhile isTagChar) with
    | none => rw [h₃] at h; cases h
    | some r₂ =>
      rw [h₃] at h
      cases h
      refine ⟨fun he => h₂ ?_, fun c hcmem => List.mem_takeWhile_imp hcmem⟩
      rw [he]
      rfl

theorem findTags_sound_aux :
    ∀ (n : Nat) (l : List Char), l.length ≤ n →
      ∀ t ∈ findTags l, t ≠ [] ∧ ∀ c ∈ t, isTagChar c := by
  intro n
  induction n with
  | zero =>
    intro l hl t ht
    have hnil : l = [] := List.length_eq_zero.mp (Nat.le_zero.mp hl)
    rw [hnil, findTags_nil] at ht
    cases ht
  | succ n ih =>
    intro l hl t ht
    match l with
    | [] => rw [findTags_nil] at ht; cases ht
    | c :: rest =>
      match hm : matchTagAt (c :: rest) with
      | some (cap, rem) =>
        rw [findTags_cons_pos hm] at ht
        rcases List.mem_cons.mp ht with rfl | hmem
        · exact matchTagAt_some_facts hm
        · have hlen : rem.length ≤ n := by
            have := matchTagAt_length hm
            simp only [List.length_cons] at this hl
            omega
          exact ih rem hlen t hmem
      | none =>
        rw [findTags_cons_neg hm] at ht
        have hlen : rest.length ≤ n := by
          simp only [List.length_cons] at hl
          omega
        exact ih rest hlen t ht

/-- Every capture emitted by the tag-regex scan is a nonempty run of
characters from the class excluding backtick and backslash. -/
theorem findTags_sound (l : List Char) :
    ∀ t ∈ findTags l, t ≠ [] ∧ ∀ c ∈ t, isTagChar c :=
  findTags_sound_aux l.length l le_rfl

/-- Glyph class of the rating regex: the four canonical glyphs plus the
legacy alternate circle. -/
def ratingGlyphs : List Char := ['◎', '○', '〇', '△', '❌']

/-- Literal characters of the rating regex before the glyph. -/
def ratingMarkPre : List Char := ['*', '*', '評', '価', ':', ' ']

/-- The glyph capture and the closing literal of the rating regex. -/
def glyphAt : List Char → Option Char
  | c :: rest =>
    if c ∈ ratingGlyphs ∧ ['*', '*'].isPrefixOf rest then some c else none
  | [] => none

def matchRatingAt (l : List Char) : Option Char :=
  if ratingMarkPre.isPrefixOf l then glyphAt (l.drop ratingMarkPre.length)
  else none

/-- `re.search` of the rating regex: leftmost match, returning the captured
glyph. -/
def findRating : List Char → Option Char
  | [] => none
  | c :: rest =>
    match matchRatingAt (c :: rest) with
    | some g => some g
    | none => findRating rest

/-- `rating.replace` of the legacy circle by the canonical one.  (The
source also applies `.strip()` to the captured glyph, which is the identity
on every glyph of the class.) -/
def normalizeRating (c : Char) : Char := if c = '〇' then '○' else c

def parseRating (content : List Char) : Option Char :=
  (findRating content).map normalizeRating

/-- Literal characters of the title regex before the lazy capture. -/
def titleMark : List Char := ['#', ' ', '実', '験', ' ']

/-- Lazy capture `(.+?):` — the shortest nonempty run of non-newline
characters followed by a colon.  Returns the capture and the input remaining
after the colon. -/
def lazyCapture : List Char → Option (List Char × List Char)
  | [] => none
  | c :: rest =>
    if c = '\n' then none
    else
      match rest with
      | [] => none
      | d :: rest₂ =>
        if d = ':' then some ([c], rest₂)
        else (lazyCapture (d :: rest₂)).map (fun p => (c :: p.1, p.2))

def matchTitleAt (l : List Char) : Option (List Char) :=
  if titleMark.isPrefixOf l then
    (lazyCapture (l.drop titleMark.length)).map Prod.fst
  else none

def findTitle : List Char → Option (List Char)
  | [] => none
  | c :: rest =>
    match matchTitleAt (c :: rest) with
    | some cap => some cap
    | none => findTitle rest

/-- `str.strip`: remove whitespace from both ends. -/
def strip (l : List Char) : List Char :=
  ((l.dropWhile Char.isWhitespace).reverse.dropWhile Char.isWhitespace).reverse

/-- Id extraction: the filename stem, overridden by the stripped title
capture when the latter is nonempty and not the placeholder. -/
def parseId (stem : String) (content : List Char) : String :=
  match findTitle content with
  | some cap =>
    if String.mk (strip cap) ≠ "" ∧ String.mk (strip cap) ≠ "ID" then
      String.mk (strip cap)
    else stem
  | none => stem

/-- Matcher for a basic-information regex at the head of the input: the label
literal followed by a nonempty greedy run of non-newline characters; the
captured value is stripped. -/
def matchLineField (label l : List Char) : Option (List Char) :=
  if label.isPrefixOf l then
    if ((l.drop label.length).takeWhile (fun c => c ≠ '\n')).isEmpty then none
    else some (strip ((l.drop label.length).takeWhile (fun c => c ≠ '\n')))
  else none

def findField (label : List Char) : List Char → Option (List Char)
  | [] => none
  | c :: rest =>
    match matchLineField label (c :: rest) with
    | some v => some v
    | none => findField label rest

/-- Literal characters of the tags-line regex before `.*`. -/
def tagsMark : List Char := ['*', '*', 'タ', 'グ', ':', '*', '*']

/-- The tags-line regex: the text from the first occurrence of the tags
marker to the end of that line. -/
def findTagsLine : List Char → Option (List Char)
  | [] => none
  | c :: rest =>
    if tagsMark.isPrefixOf (c :: rest) then
      some ((c :: rest).takeWhile (fun ch => ch ≠ '\n'))
    else findTagsLine rest

def parseTags (content : List Char) : List String :=
  match findTagsLine content with
  | some txt => (findTags txt).map String.mk
  | none => []

def dateLabel : List Char := ['-', ' ', '日', '付', ':', ' ']

def recorderLabel : List Char := ['-', ' ', '記', '録', '者', ':', ' ']

def modelLabel : List Char := ['-', ' ', 'モ', 'デ', 'ル', ':', ' ']

def targetLabel : List Char := ['-', ' ', '対', '象', ':', ' ']

/-- One parsed experiment record.  `id` and `tags` are always set by the
extractor; the other fields are set only when their pattern matches. -/
structure Experiment where
  id : String
  date : Option String := none
  recorder : Option String := none
  model : Option String := none
  target : Option String := none
  rating : Option Char := none
  tags : List String := []
deriving DecidableEq

/-- The record extractor, given the document text and the filename stem. -/
def parse_experiment (stem : String) (content : List Char) : Experiment :=
  { id := parseId stem content
    date := (findField dateLabel content).map String.mk
    recorder := (findField recorderLabel content).map String.mk
    model := (findField modelLabel content).map String.mk
    target := (findField targetLabel content).map String.mk
    rating := parseRating content
    tags := parseTags content }

/-- C1: a tag token written inside inline-code delimiters is extracted
identically under all four escaping forms — plain, escaped-left,
escaped-right and escaped-both all emit the bare token `x` and resume after
the closing delimiter. -/
theorem tag_escaping_forms_agree (x rest : List Char) (hx : x ≠ [])
    (hc : ∀ c ∈ x, isTagChar c) :
    findTags (btick :: (x ++ btick :: rest)) = x :: findTags rest ∧
    findTags (bslash :: btick :: (x ++ btick :: rest)) = x :: findTags rest ∧
    findTags (btick :: (x ++ bslash :: btick :: rest)) = x :: findTags rest ∧
    findTags (bslash :: btick :: (x ++ bslash :: btick :: rest)) =
      x :: findTags rest :=
  ⟨findTags_cons_pos (matchTag_plain x rest hx hc),
   findTags_cons_pos (matchTag_escLeft x rest hx hc),
   findTags_cons_pos (matchTag_escRight x rest hx hc),
   findTags_cons_pos (matchTag_escBoth x rest hx hc)⟩

theorem tag_escaping_forms_agree_witness :
    findTags (btick :: (['x'] ++ btick :: [])) = ['x'] :: findTags [] ∧
    findTags (bslash :: btick :: (['x'] ++ btick :: [])) =
      ['x'] :: findTags [] ∧
    findTags (btick :: (['x'] ++ bslash :: btick :: [])) =
      ['x'] :: findTags [] ∧
    findTags (bslash :: btick :: (['x'] ++ bslash :: btick :: [])) =
      ['x'] :: findTags [] :=
  tag_escaping_forms_agree ['x'] [] (by decide) (by decide)

/-- C10: every tag stored in a record is nonempty and contains neither a
backtick nor a backslash; consequently no token containing either character
is ever extracted whole. -/
theorem tags_no_delimiter_chars (stem : String) (content : List Char) :
    (∀ t ∈ (parse_experiment stem content).tags,
        t ≠ "" ∧ ∀ c ∈ t.data, c ≠ btick ∧ c ≠ bslash) ∧
    ∀ bad : String, (∃ c ∈ bad.data, c = btick ∨ c = bslash) →
        bad ∉ (parse_experiment stem content).tags := by
  have hmain : ∀ t ∈ (parse_experiment stem content).tags,
      t ≠ "" ∧ ∀ c ∈ t.data, c ≠ btick ∧ c ≠ bslash := by
    intro t ht
    simp only [parse_experiment, parseTags] at ht
    match hline : findTagsLine content with
    | none => rw [hline] at ht; cases ht
    | some txt =>
      rw [hline] at ht
      rcases List.mem_map.mp ht with ⟨cs, hcs, rfl⟩
      have hfacts := findTags_sound txt cs hcs
      refine ⟨?_, ?_⟩
      · intro he
        apply hfacts.1
        have : (String.mk cs).data = ("" : String).data := by rw [he]
        simpa using this
      · intro c hcmem
        have htc := hfacts.2 c hcmem
        simp only [isTagChar, Bool.and_eq_true, decide_eq_true_eq,
          ne_eq] at htc
        exact ⟨htc.1, htc.2⟩
  refine ⟨hmain, ?_⟩
  intro bad ⟨c, hcmem, hbad⟩ hin
  have := (hmain bad hin).2 c hcmem
  rcases hbad with rfl | rfl
  · exact this.1 rfl
  · exact this.2 rfl

/-- The rating bucket of a record: its glyph, or the unknown bucket when the
rating is absent. -/
def ratingKey (e : Experiment) : String :=
  match e.rating with
  | some c => String.mk [c]
  | none => "不明"

/-- The model bucket of a record: its model, or the unknown bucket when the
model is absent. -/
def modelKey (e : Experiment) : String := e.model.getD "不明"

/-- `rating_counts` as a total mapping (a missing key of the counter reads
as zero). -/
def ratingCount (es : List Experiment) (r : String) : Nat :=
  (es.filter (fun e => ratingKey e = r)).length

/-- `success_count`: the two counter entries for the two success glyphs. -/
def successCount (es : List Experiment) : Nat :=
  ratingCount es "◎" + ratingCount es "○"

/-- `success_rate`, with the guard of the source: zero when there are no
records, otherwise the exact quotient times one hundred. -/
def successRate (es : List Experiment) : ℚ :=
  if 0 < es.length then (successCount es : ℚ) / (es.length : ℚ) * 100 else 0

/-- The records grouped under one model bucket. -/
def modelGroup (es : List Experiment) (m : String) : List Experiment :=
  es.filter (fun e => modelKey e = m)

/-- The (tag, owner id) pairs in traversal order: records in order, each
record's tag list in order. -/
def tagPairs (es : List Experiment) : List (String × String) :=
  es.flatMap (fun e => e.tags.map (fun t => (t, e.id)))

/-- `tag_counts` as a total mapping. -/
def tagCount (es : List Experiment) (t : String) : Nat :=
  ((tagPairs es).filter (fun p => p.1 = t)).length

/-- `tag_experiments` as a total mapping: the owner ids of the occurrences
of a tag, in traversal order, one appended id per occurrence. -/
def tagExperiments (es : List Experiment) (t : String) : List String :=
  ((tagPairs es).filter (fun p => p.1 = t)).map Prod.snd

/-- The dictionary returned by the aggregator. -/
structure Stats where
  total : Nat
  success_rate : ℚ
  rating_counts : String → Nat
  model_totals : String → Nat
  model_ratings : String → String → Nat
  tag_counts : String → Nat
  tag_experiments : String → List String

def calculate_stats (es : List Experiment) : Stats :=
  { total := es.length
    success_rate := successRate es
    rating_counts := ratingCount es
    model_totals := fun m => (modelGroup es m).length
    model_ratings := fun m => ratingCount (modelGroup es m)
    tag_counts := tagCount es
    tag_experiments := tagExperiments es }

theorem successCount_eq (es : List Experiment) :
    successCount es =
      (es.filter (fun e => ratingKey e = "◎" ∨ ratingKey e = "○")).length := by
  induction es with
  | nil => rfl
  | cons e t ih =>
    simp only [successCount, ratingCount, List.filter_cons] at ih ⊢
    by_cases h₁ : ratingKey e = "◎" <;> by_cases h₂ : ratingKey e = "○"
    · exact absurd (h₁.symm.trans h₂) (by decide)
    all_goals simp +decide [h₁, h₂] at ih ⊢ <;> omega

theorem successCount_le (es : List Experiment) :
    successCount es ≤ es.length := by
  rw [successCount_eq]
  exact List.length_filter_le _ es

/-- C2: the success rate lies in the closed interval from zero to one
hundred; it is exactly zero on the empty record list (the division is
guarded, not faulting), and otherwise equals the success count over the
total times one hundred. -/
theorem success_rate_in_range (es : List Experiment) :
    0 ≤ (calculate_stats es).success_rate ∧
    (calculate_stats es).success_rate ≤ 100 ∧
    (es.length = 0 → (calculate_stats es).success_rate = 0) ∧
    (0 < es.length →
      (calculate_stats es).success_rate =
        ((es.filter (fun e => ratingKey e = "◎" ∨ ratingKey e = "○")).length : ℚ)
          / (es.length : ℚ) * 100) := by
  simp only [calculate_stats, successRate]
  by_cases h : 0 < es.length
  · have ht : (0 : ℚ) < (es.length : ℚ) := by exact_mod_cast h
    have hs : (0 : ℚ) ≤ (successCount es : ℚ) := by positivity
    have hle : (successCount es : ℚ) ≤ (es.length : ℚ) := by
      exact_mod_cast successCount_le es
    refine ⟨?_, ?_, ?_, ?_⟩
    · simp only [h, if_true]
      positivity
    · simp only [h, if_true]
      have hdiv : (successCount es : ℚ) / (es.length : ℚ) ≤ 1 :=
        (div_le_one ht).mpr hle
      calc (successCount es : ℚ) / (es.length : ℚ) * 100
          ≤ 1 * 100 := by
            exact mul_le_mul_of_nonneg_right hdiv (by norm_num)
        _ = 100 := by norm_num
    · intro h0
      omega
    · intro _
      simp only [h, if_true, successCount_eq]
  · simp [h]

theorem count_bucket (key : Experiment → String) (k : String) :
    ∀ l : List Experiment,
      (l.map key).count k = (l.filter (fun e => key e = k)).length
  | [] => rfl
  | e :: t => by
    have ih := count_bucket key k t
    simp only [List.map_cons, List.count_cons, List.filter_cons]
    by_cases h : key e = k
    · simp +decide [h, ih]
      try omega
    · simp +decide [h, ih]
      try omega

theorem sum_buckets (key : Experiment → String) (l : List Experiment) :
    ∑ k ∈ (l.map key).toFinset, (l.filter (fun e => key e = k)).length
      = l.length := by
  have h := Multiset.toFinset_sum_count_eq ((l.map key : List String) : Multiset String)
  rw [Multiset.coe_card, List.length_map] at h
  rw [← h]
  apply Finset.sum_congr rfl
  intro k _
  rw [Multiset.coe_count, count_bucket]

/-- C4: the per-rating counts, the unknown bucket included, partition the
records: their sum over the occurring buckets is the total, both globally
and within every model group. -/
theorem rating_counts_partition (es : List Experiment) :
    (∑ k ∈ (es.map ratingKey).toFinset, (calculate_stats es).rating_counts k)
        = (calculate_stats es).total ∧
    ∀ m : String,
      (∑ k ∈ ((modelGroup es m).map ratingKey).toFinset,
          (calculate_stats es).model_ratings m k)
        = (calculate_stats es).model_totals m := by
  constructor
  · simpa only [calculate_stats, ratingCount] using sum_buckets ratingKey es
  · intro m
    simpa only [calculate_stats, ratingCount]
      using sum_buckets ratingKey (modelGroup es m)

theorem tagPairs_record (i t : String) :
    ∀ tags : List String,
      ((tags.map (fun tg => (tg, i))).filter (fun p => p.1 = t)).map Prod.snd
        = List.replicate (tags.count t) i
  | [] => rfl
  | tg :: r => by
    have ih := tagPairs_record i t r
    simp only [List.map_cons, List.filter_cons, List.count_cons]
    by_cases h : tg = t
    · simp +decide [h, ih, List.replicate_succ]
    · simp +decide [h, ih]

theorem tagExperiments_replicate (es : List Experiment) (t : String) :
    tagExperiments es t
      = es.flatMap (fun e => List.replicate (e.tags.count t) e.id) := by
  induction es with
  | nil => rfl
  | cons e r ih =>
    simp only [tagExperiments, tagPairs, List.flatMap_cons, List.filter_append,
      List.map_append] at ih ⊢
    rw [tagPairs_record e.id t e.tags, ih]

/-- C6 as amended: the back-reference list is the concatenation, in record
order, of each record's id repeated once per occurrence of the tag in that
record's own tag list — repeats inside one record do duplicate the id. -/
theorem tag_backrefs_per_occurrence (es : List Experiment) (t : String) :
    (calculate_stats es).tag_experiments t
      = es.flatMap (fun e => List.replicate (e.tags.count t) e.id) := by
  simp only [calculate_stats]
  exact tagExperiments_replicate es t

/-- C6 counterexample: with a single record whose tag list contains the same
tag twice, the record's id is appended twice to that tag's back-reference
list, not once. -/
theorem tag_backrefs_dup_counterexample :
    (calculate_stats [{ id := "001", tags := ["x", "x"] }]).tag_experiments "x"
        = ["001", "001"] ∧
    ((calculate_stats [{ id := "001", tags := ["x", "x"] }]).tag_experiments
        "x").count "001" = 2 ∧
    ¬ ((calculate_stats [{ id := "001", tags := ["x", "x"] }]).tag_experiments
        "x").count "001" = 1 := by
  refine ⟨by decide, by decide, by decide⟩

/-- C5: the length of a tag's back-reference list equals the occurrence
count of the tag summed over all records' tag lists, repeats within a single
record included; and that is also the value of the tag counter. -/
theorem tag_backref_length_eq_count (es : List Experiment) (t : String) :
    ((calculate_stats es).tag_experiments t).length
        = (es.map (fun e => e.tags.count t)).sum ∧
    (calculate_stats es).tag_counts t
        = (es.map (fun e => e.tags.count t)).sum := by
  have hflat : ∀ l : List Experiment,
      (l.flatMap (fun e => List.replicate (e.tags.count t) e.id)).length
        = (l.map (fun e => e.tags.count t)).sum := by
    intro l
    induction l with
    | nil => rfl
    | cons e r ih =>
      simp only [List.flatMap_cons, List.map_cons, List.sum_cons,
        List.length_append, List.length_replicate, ih]
  have hlen : ((calculate_stats es).tag_experiments t).length
      = (es.map (fun e => e.tags.count t)).sum := by
    have hte : (calculate_stats es).tag_experiments t = tagExperiments es t :=
      rfl
    rw [hte, tagExperiments_replicate, hflat]
  refine ⟨hlen, ?_⟩
  have : (calculate_stats es).tag_counts t
      = ((calculate_stats es).tag_experiments t).length := by
    simp only [calculate_stats, tagCount, tagExperiments, List.length_map]
  rw [this, hlen]

theorem glyphAt_mem {x : List Char} {g : Char}
    (h : glyphAt x = some g) : g ∈ ratingGlyphs := by
  match x with
  | [] => cases h
  | c :: rest =>
    have h₂ : (if c ∈ ratingGlyphs ∧ ['*', '*'].isPrefixOf rest then some c
        else none) = some g := h
    split_ifs at h₂ with hc
    cases h₂
    exact hc.1

theorem matchRatingAt_mem {l : List Char} {g : Char}
    (h : matchRatingAt l = some g) : g ∈ ratingGlyphs := by
  unfold matchRatingAt at h
  split_ifs at h with h₁
  exact glyphAt_mem h

theorem findRating_mem : ∀ (l : List Char) (g : Char),
    findRating l = some g → g ∈ ratingGlyphs := by
  intro l
  induction l with
  | nil => intro g h; cases h
  | cons c rest ih =>
    intro g h
    unfold findRating at h
    match hm : matchRatingAt (c :: rest) with
    | some g₂ =>
      rw [hm] at h
      cases h
      exact matchRatingAt_mem hm
    | none =>
      rw [hm] at h
      exact ih g h

/-- C3: a stored rating is always one of the four canonical glyphs, and when
the matched glyph is the legacy alternate circle the stored rating is the
canonical met-expectations circle. -/
theorem rating_canonical (stem : String) (content : List Char) (r : Char)
    (h : (parse_experiment stem content).rating = some r) :
    (r = '◎' ∨ r = '○' ∨ r = '△' ∨ r = '❌') ∧
    (findRating content = some '〇' → r = '○') := by
  simp only [parse_experiment, parseRating] at h
  obtain ⟨g, hg, rfl⟩ := Option.map_eq_some'.mp h
  have hmem := findRating_mem content g hg
  constructor
  · simp only [ratingGlyphs, List.mem_cons, List.not_mem_nil, or_false]
      at hmem
    rcases hmem with rfl | rfl | rfl | rfl | rfl
    · exact Or.inl (by decide)
    · exact Or.inr (Or.inl (by decide))
    · exact Or.inr (Or.inl (by decide))
    · exact Or.inr (Or.inr (Or.inl (by decide)))
    · exact Or.inr (Or.inr (Or.inr (by decide)))
  · intro h₂
    rw [hg] at h₂
    cases h₂
    rfl

theorem rating_canonical_witness :
    ('○' = '◎' ∨ '○' = '○' ∨ '○' = '△' ∨ '○' = '❌') ∧
    (findRating ['*', '*', '評', '価', ':', ' ', '〇', '*', '*'] = some '〇' →
      '○' = '○') :=
  rating_canonical "001" ['*', '*', '評', '価', ':', ' ', '〇', '*', '*'] '○'
    (by decide)

theorem parseId_some {content : List Char} {cap : List Char}
    (hf : findTitle content = some cap) (stem : String) :
    parseId stem content =
      if String.mk (strip cap) ≠ "" ∧ String.mk (strip cap) ≠ "ID" then
        String.mk (strip cap)
      else stem := by
  unfold parseId
  rw [hf]

theorem parseId_none {content : List Char}
    (hf : findTitle content = none) (stem : String) :
    parseId stem content = stem := by
  unfold parseId
  rw [hf]

/-- C7: the record id equals the stripped title capture exactly when the
title pattern matches and the stripped capture is nonempty and not the
placeholder; in every other case it equals the filename stem; with a
nonempty stem the id is never empty. -/
theorem id_from_title_or_stem (stem : String) (content : List Char)
    (h : stem ≠ "") :
    (parse_experiment stem content).id ≠ "" ∧
    (∀ cap, findTitle content = some cap →
      ((String.mk (strip cap) ≠ "" ∧ String.mk (strip cap) ≠ "ID") →
          (parse_experiment stem content).id = String.mk (strip cap)) ∧
      (¬ (String.mk (strip cap) ≠ "" ∧ String.mk (strip cap) ≠ "ID") →
          (parse_experiment stem content).id = stem)) ∧
    (findTitle content = none → (parse_experiment stem content).id = stem) := by
  have hid : (parse_experiment stem content).id = parseId stem content := rfl
  rw [hid]
  match hf : findTitle content with
  | some cap =>
    rw [parseId_some hf]
    by_cases hcond :
        String.mk (strip cap) ≠ "" ∧ String.mk (strip cap) ≠ "ID"
    · rw [if_pos hcond]
      refine ⟨hcond.1, ?_, ?_⟩
      · intro cap₂ hcap₂
        cases hcap₂
        exact ⟨fun _ => rfl, fun hn => absurd hcond hn⟩
      · intro hn
        cases hn
    · rw [if_neg hcond]
      refine ⟨h, ?_, ?_⟩
      · intro cap₂ hcap₂
        cases hcap₂
        exact ⟨fun hc => absurd hc hcond, fun _ => rfl⟩
      · intro hn
        cases hn
  | none =>
    rw [parseId_none hf]
    refine ⟨h, ?_, fun _ => rfl⟩
    intro cap hcap
    cases hcap

theorem id_from_title_or_stem_witness :
    (parse_experiment "001" ['#', ' ', '実', '験', ' ', '0', '0', '5', ':']).id
        ≠ "" ∧
    (∀ cap, findTitle ['#', ' ', '実', '験', ' ', '0', '0', '5', ':'] = some cap →
      ((String.mk (strip cap) ≠ "" ∧ String.mk (strip cap) ≠ "ID") →
          (parse_experiment "001"
            ['#', ' ', '実', '験', ' ', '0', '0', '5', ':']).id
            = String.mk (strip cap)) ∧
      (¬ (String.mk (strip cap) ≠ "" ∧ String.mk (strip cap) ≠ "ID") →
          (parse_experiment "001"
            ['#', ' ', '実', '験', ' ', '0', '0', '5', ':']).id = "001")) ∧
    (findTitle ['#', ' ', '実', '験', ' ', '0', '0', '5', ':'] = none →
      (parse_experiment "001"
        ['#', ' ', '実', '験', ' ', '0', '0', '5', ':']).id = "001") :=
  id_from_title_or_stem "001" ['#', ' ', '実', '験', ' ', '0', '0', '5', ':']
    (by decide)

/-- Glob pattern of the collector: the file name begins with a decimal digit
and ends with the markdown extension. -/
def matchesGlob (name : String) : Bool :=
  match name.data with
  | [] => false
  | c :: rest => c.isDigit && ['.', 'm', 'd'].isSuffixOf rest

/-- A directory entry: a file name together with the outcome of extracting
that file — a record, or the message of the raised error. -/
abbrev DirEntry := String × Except String Experiment

/-- The sorted glob enumeration: keep the matching names and sort them
lexicographically by file name. -/
def sortFiles (dir : List DirEntry) : List DirEntry :=
  List.insertionSort (fun a b : DirEntry => a.1 ≤ b.1)
    (dir.filter (fun f => matchesGlob f.1))

/-- The collection loop over the sorted files: a success appends its record,
a failure appends a warning naming the file and the error, and the loop
continues either way. -/
def collectLoop : List DirEntry → List Experiment × List String
  | [] => ([], [])
  | (_, Except.ok e) :: rest =>
      (e :: (collectLoop rest).1, (collectLoop rest).2)
  | (name, Except.error msg) :: rest =>
      ((collectLoop rest).1,
        ("警告: " ++ name ++ " の解析に失敗: " ++ msg) :: (collectLoop rest).2)

def collect_experiments (dir : List DirEntry) : List Experiment :=
  (collectLoop (sortFiles dir)).1

def collectWarnings (dir : List DirEntry) : List String :=
  (collectLoop (sortFiles dir)).2

theorem collectLoop_eq : ∀ l : List DirEntry,
    collectLoop l
      = (l.filterMap (fun f => f.2.toOption),
         l.filterMap (fun f =>
           match f.2 with
           | Except.ok _ => none
           | Except.error msg =>
               some ("警告: " ++ f.1 ++ " の解析に失敗: " ++ msg)))
  | [] => rfl
  | (name, res) :: rest => by
    have ih := collectLoop_eq rest
    cases res <;>
      simp [collectLoop, List.filterMap_cons, ih, Except.toOption]

/-- C8: the collector returns exactly the successfully extracted records of
the matching files in lexicographically sorted file-name order; every failing
file is logged by name and skipped, and never removes another file's
record. -/
theorem collector_skips_failures (dir : List DirEntry) :
    collect_experiments dir
        = (sortFiles dir).filterMap (fun f => f.2.toOption) ∧
    collectWarnings dir
        = (sortFiles dir).filterMap (fun f =>
            match f.2 with
            | Except.ok _ => none
            | Except.error msg =>
                some ("警告: " ++ f.1 ++ " の解析に失敗: " ++ msg)) ∧
    (sortFiles dir).Perm (dir.filter (fun f => matchesGlob f.1)) ∧
    ((sortFiles dir).map Prod.fst).Sorted (· ≤ ·) ∧
    (∀ f ∈ sortFiles dir, ∀ e, f.2 = Except.ok e →
        e ∈ collect_experiments dir) ∧
    (∀ f ∈ sortFiles dir, ∀ msg, f.2 = Except.error msg →
        ("警告: " ++ f.1 ++ " の解析に失敗: " ++ msg) ∈ collectWarnings dir) := by
  haveI hTot : IsTotal DirEntry (fun a b : DirEntry => a.1 ≤ b.1) :=
    ⟨fun a b => le_total a.1 b.1⟩
  haveI hTrans : IsTrans DirEntry (fun a b : DirEntry => a.1 ≤ b.1) :=
    ⟨fun _ _ _ hab hbc => le_trans hab hbc⟩
  have h₁ : collect_experiments dir
      = (sortFiles dir).filterMap (fun f => f.2.toOption) := by
    rw [collect_experiments, collectLoop_eq]
  have h₂ : collectWarnings dir
      = (sortFiles dir).filterMap (fun f =>
          match f.2 with
          | Except.ok _ => none
          | Except.error msg =>
              some ("警告: " ++ f.1 ++ " の解析に失敗: " ++ msg)) := by
    rw [collectWarnings, collectLoop_eq]
  refine ⟨h₁, h₂, ?_, ?_, ?_, ?_⟩
  · exact List.perm_insertionSort _ _
  · have hs : (sortFiles dir).Sorted (fun a b : DirEntry => a.1 ≤ b.1) :=
      List.sorted_insertionSort _ _
    exact List.Pairwise.map Prod.fst (fun a b hab => hab) hs
  · intro f hf e he
    rw [h₁]
    exact List.mem_filterMap.mpr ⟨f, hf, by rw [he]; rfl⟩
  · intro f hf msg hmsg
    rw [h₂]
    exact List.mem_filterMap.mpr ⟨f, hf, by rw [hmsg]⟩

/-- The observable effects of one run: progress prints, chart image writes
and the report write. -/
inductive Effect where
  | print (s : String)
  | savefig (path : String)
  | writeStats
deriving DecidableEq

/-- `generate_timeline_chart`: a no-op on empty input, otherwise one image. -/
def timelineEffects (experiments : List Experiment) : List Effect :=
  if experiments.isEmpty then [] else [Effect.savefig "images/timeline.png"]

/-- `generate_model_comparison_chart`: a no-op when the per-model statistics
are empty (no model buckets), otherwise one image. -/
def modelChartEffects (es : List Experiment) : List Effect :=
  if ((es.map modelKey).dedup).isEmpty then []
  else [Effect.savefig "images/model_comparison.png"]

/-- `generate_tag_cloud_chart`: a no-op when the tag counter is empty (no
tag occurrence at all), otherwise one image. -/
def tagChartEffects (es : List Experiment) : List Effect :=
  if (((tagPairs es).map Prod.fst).dedup).isEmpty then []
  else [Effect.savefig "images/tag_cloud.png"]

/-- The effect sequence of `main`.  The fixed-point rendering of the success
rate in the progress print is abstracted by the exact rational value. -/
def mainEffects (dir : List DirEntry) : List Effect :=
  [Effect.print "実験データを収集中..."]
    ++ (collectWarnings dir).map Effect.print
    ++ [Effect.print
        ("✓ " ++ toString (collect_experiments dir).length ++ " 件の実験を検出")]
    ++ (if (collect_experiments dir).isEmpty then
          [Effect.print "実験データが見つかりません"]
        else
          [Effect.print "\n統計情報を計算中...",
           Effect.print ("✓ 成功率: "
             ++ toString (calculate_stats (collect_experiments dir)).success_rate
             ++ "%"),
           Effect.print "\nグラフを生成中..."]
          ++ timelineEffects (collect_experiments dir)
          ++ [Effect.print "✓ timeline.png"]
          ++ modelChartEffects (collect_experiments dir)
          ++ [Effect.print "✓ model_comparison.png"]
          ++ tagChartEffects (collect_experiments dir)
          ++ [Effect.print "✓ tag_cloud.png",
              Effect.print "\nStats.mdを更新中...",
              Effect.writeStats,
              Effect.print "✓ Stats.md",
              Effect.print "\n完了！"])

/-- C9: when collection finds no records, the run only prints — the notice
included — and performs neither an image write nor the report write. -/
theorem main_no_outputs_when_empty (dir : List DirEntry)
    (h : collect_experiments dir = []) :
    mainEffects dir
        = [Effect.print "実験データを収集中..."]
          ++ (collectWarnings dir).map Effect.print
          ++ [Effect.print "✓ 0 件の実験を検出",
              Effect.print "実験データが見つかりません"] ∧
    (∀ p, Effect.savefig p ∉ mainEffects dir) ∧
    Effect.writeStats ∉ mainEffects dir := by
  have heq : mainEffects dir
      = [Effect.print "実験データを収集中..."]
        ++ (collectWarnings dir).map Effect.print
        ++ [Effect.print "✓ 0 件の実験を検出",
            Effect.print "実験データが見つかりません"] := by
    simp [mainEffects, h]
    decide
  refine ⟨heq, ?_, ?_⟩
  · intro p hp
    rw [heq] at hp
    simp only [List.mem_append, List.mem_map, List.mem_cons,
      List.mem_singleton, List.not_mem_nil] at hp
    rcases hp with (hp | ⟨w, _, hw⟩) | hp <;> simp_all
  · intro hp
    rw [heq] at hp
    simp only [List.mem_append, List.mem_map, List.mem_cons,
      List.mem_singleton, List.not_mem_nil] at hp
    rcases hp with (hp | ⟨w, _, hw⟩) | hp <;> simp_all

theorem main_no_outputs_when_empty_witness :
    (mainEffects []
        = [Effect.print "実験データを収集中..."]
          ++ (collectWarnings []).map Effect.print
          ++ [Effect.print "✓ 0 件の実験を検出",
              Effect.print "実験データが見つかりません"] ∧
    (∀ p, Effect.savefig p ∉ mainEffects ([] : List DirEntry)) ∧
    Effect.writeStats ∉ mainEffects ([] : List DirEntry)) :=
  main_no_outputs_when_empty [] (by rfl)

end UpdateStats
